import Mathlib

/-!
Verification of the FINN example driver (`src/finn_examples/driver.py`).

The development shallowly embeds the driver's data model and operations:

* the bit-packing transcoder (`finnpy_to_packed_bytearray` /
  `packed_bytearray_to_finnpy`, modelled from the spec since the packing
  code lives in the external `finn.util.data_packing` module, not in this
  repository's sources);
* the `FINNExampleOverlay` driver as a state machine over `DriverState`,
  with device interactions (register reads/writes, DMA starts, buffer
  allocation and copies) recorded as an explicit `Event` trace, and the
  output-DMA status register modelled as an oracle sequence of read values.

Python `assert`/`raise` failures are modelled with `Except String`.
-/

/-! ## List utilities: chunking a flat buffer into fixed-size groups -/

/-- Split a list into `k` consecutive chunks of `n` elements each
(the fuel `k` makes the recursion structural). -/
def toChunks (n : Nat) : Nat → List α → List (List α)
  | 0, _ => []
  | k + 1, l => l.take n :: toChunks n k (l.drop n)

theorem toChunks_length (n k : Nat) (l : List α) :
    (toChunks n k l).length = k := by
  induction k generalizing l with
  | zero => rfl
  | succ k ih => simp [toChunks, ih]

theorem take_append_self (l₁ l₂ : List α) : (l₁ ++ l₂).take l₁.length = l₁ := by
  simp

theorem drop_append_self (l₁ l₂ : List α) : (l₁ ++ l₂).drop l₁.length = l₂ := by
  simp

/-- Chunking the concatenation of equal-length lists recovers the lists. -/
theorem toChunks_flatten (n : Nat) (ls : List (List α))
    (h : ∀ l ∈ ls, l.length = n) :
    toChunks n ls.length ls.flatten = ls := by
  induction ls with
  | nil => rfl
  | cons l ls ih =>
    have hl : l.length = n := h l (by simp)
    have ht : (l ++ ls.flatten).take n = l := by
      rw [← hl]; exact take_append_self l ls.flatten
    have hd : (l ++ ls.flatten).drop n = ls.flatten := by
      rw [← hl]; exact drop_append_self l ls.flatten
    simp only [List.length_cons, toChunks, List.flatten_cons]
    rw [ht, hd, ih (fun l' hl' => h l' (by simp [hl']))]

/-- Concatenating the chunks of a list of length `k * n` recovers the list. -/
theorem flatten_toChunks (n k : Nat) (l : List α) (h : l.length = k * n) :
    (toChunks n k l).flatten = l := by
  induction k generalizing l with
  | zero =>
    have hl : l = [] := List.eq_nil_of_length_eq_zero (by omega)
    simp [toChunks, hl]
  | succ k ih =>
    have hdrop : (l.drop n).length = k * n := by
      rw [List.length_drop, h, Nat.succ_mul]; omega
    simp only [toChunks, List.flatten_cons]
    rw [ih (l.drop n) hdrop, List.take_append_drop]

/-- Every chunk of a list of length `k * n` has length `n`. -/
theorem length_mem_toChunks (n k : Nat) (l : List α) (h : l.length = k * n) :
    ∀ c ∈ toChunks n k l, c.length = n := by
  induction k generalizing l with
  | zero => simp [toChunks]
  | succ k ih =>
    intro c hc
    have hn : n ≤ l.length := by rw [h, Nat.succ_mul]; omega
    have hdrop : (l.drop n).length = k * n := by
      rw [List.length_drop, h, Nat.succ_mul]; omega
    simp only [toChunks, List.mem_cons] at hc
    rcases hc with rfl | hc
    · simp [List.length_take]; omega
    · exact ih (l.drop n) hdrop c hc

/-- Elements of a chunk are elements of the original list. -/
theorem mem_of_mem_toChunks (n k : Nat) (l c : List α)
    (hc : c ∈ toChunks n k l) (x : α) (hx : x ∈ c) : x ∈ l := by
  induction k generalizing l with
  | zero => simp [toChunks] at hc
  | succ k ih =>
    simp only [toChunks, List.mem_cons] at hc
    rcases hc with rfl | hc
    · exact List.take_subset n l hx
    · exact List.drop_subset n l (ih (l.drop n) hc)

/-- Length of a concatenation of equal-length lists. -/
theorem flatten_length_const (ls : List (List α)) (n : Nat)
    (h : ∀ l ∈ ls, l.length = n) : ls.flatten.length = ls.length * n := by
  induction ls with
  | nil => simp
  | cons l ls ih =>
    simp only [List.flatten_cons, List.length_append, List.length_cons]
    rw [h l (by simp), ih (fun l' hl' => h l' (by simp [hl'])), Nat.succ_mul]
    ring

/-! ## Bit-level encoding

Machine words are modelled as `Nat` values together with explicit bit lists.
`natToBitsLE w n` is the `w`-bit little-endian (LSB-first) binary expansion
of `n`; the MSB-first variants are obtained by reversal. -/

def natToBitsLE : Nat → Nat → List Bool
  | 0, _ => []
  | w + 1, n => (n % 2 == 1) :: natToBitsLE w (n / 2)

def bitsLEToNat : List Bool → Nat
  | [] => 0
  | b :: bs => (if b then 1 else 0) + 2 * bitsLEToNat bs

theorem length_natToBitsLE (w n : Nat) : (natToBitsLE w n).length = w := by
  induction w generalizing n with
  | zero => rfl
  | succ w ih => simp [natToBitsLE, ih]

/-- Decomposition of `n % (2 * k)` into the low bit and the rest. -/
theorem mod_two_mul_decomp (n k : Nat) (hk : 0 < k) :
    n % (2 * k) = n % 2 + 2 * (n / 2 % k) := by
  have hr2 : n / 2 % k < k := Nat.mod_lt _ hk
  have hn : n % 2 + 2 * (n / 2 % k) + 2 * k * (n / 2 / k) = n := by
    have h2 : k * (n / 2 / k) + n / 2 % k = n / 2 := Nat.div_add_mod (n / 2) k
    calc n % 2 + 2 * (n / 2 % k) + 2 * k * (n / 2 / k)
        = n % 2 + 2 * (k * (n / 2 / k) + n / 2 % k) := by ring
      _ = n % 2 + 2 * (n / 2) := by rw [h2]
      _ = n := by omega
  conv_lhs => rw [← hn]
  rw [Nat.add_mul_mod_self_left]
  exact Nat.mod_eq_of_lt (by omega)

theorem bitsLEToNat_natToBitsLE (w n : Nat) :
    bitsLEToNat (natToBitsLE w n) = n % 2 ^ w := by
  induction w generalizing n with
  | zero => simp [natToBitsLE, bitsLEToNat, Nat.mod_one]
  | succ w ih =>
    have hpos : 0 < 2 ^ w := Nat.pos_pow_of_pos w (by omega)
    have hpow : 2 ^ (w + 1) = 2 * 2 ^ w := by rw [pow_succ]; ring
    rw [hpow, mod_two_mul_decomp n (2 ^ w) hpos]
    simp only [natToBitsLE, bitsLEToNat, ih]
    rcases Nat.mod_two_eq_zero_or_one n with h | h <;> simp [h]

theorem natToBitsLE_bitsLEToNat (bs : List Bool) :
    natToBitsLE bs.length (bitsLEToNat bs) = bs := by
  induction bs with
  | nil => rfl
  | cons b bs ih =>
    have hhead : (((if b then 1 else 0) + 2 * bitsLEToNat bs) % 2 == 1) = b := by
      cases b <;> simp
    have hdiv : ((if b then 1 else 0) + 2 * bitsLEToNat bs) / 2 = bitsLEToNat bs := by
      cases b <;> simp <;> omega
    simp only [List.length_cons, natToBitsLE, bitsLEToNat, hhead, hdiv, ih]

/-- `w`-bit MSB-first binary expansion of `n`. -/
def natToBits (w n : Nat) : List Bool := (natToBitsLE w n).reverse

/-- Value of an MSB-first bit list. -/
def bitsToNat (bs : List Bool) : Nat := bitsLEToNat bs.reverse

theorem length_natToBits (w n : Nat) : (natToBits w n).length = w := by
  simp [natToBits, length_natToBitsLE]

theorem bitsToNat_natToBits (w n : Nat) : bitsToNat (natToBits w n) = n % 2 ^ w := by
  simp [bitsToNat, natToBits, bitsLEToNat_natToBitsLE]

theorem natToBits_bitsToNat (bs : List Bool) :
    natToBits bs.length (bitsToNat bs) = bs := by
  have h := natToBitsLE_bitsLEToNat bs.reverse
  rw [List.length_reverse] at h
  simp only [natToBits, bitsToNat]
  rw [h, List.reverse_reverse]

/-! ## Element datatypes

`DataType` mirrors FINN's `DataType` objects as used by the driver
(`self.idt` / `self.odt`): a bit width and a signedness flag.  A value is
`allowed` when it is representable in `width` bits with the given
signedness (two's complement for signed datatypes). -/

structure DataType where
  width : Nat
  signed : Bool
deriving DecidableEq

def DataType.allowed (dt : DataType) (v : Int) : Prop :=
  if dt.signed then
    -((2 : Int) ^ (dt.width - 1)) ≤ v ∧ v < (2 : Int) ^ (dt.width - 1)
  else 0 ≤ v ∧ v < (2 : Int) ^ dt.width

instance (dt : DataType) (v : Int) : Decidable (dt.allowed v) := by
  unfold DataType.allowed
  exact inferInstance

/-- Interpret a `width`-bit unsigned field value as a logical value of the
datatype: two's-complement sign extension when the datatype is signed and
the top bit of the field is set. -/
def DataType.toSigned (dt : DataType) (n : Nat) : Int :=
  if dt.signed = true ∧ 2 ^ (dt.width - 1) ≤ n then
    (n : Int) - (2 : Int) ^ dt.width
  else (n : Int)

/-- The `width`-bit MSB-first field encoding a logical value
(two's complement bit pattern: the value reduced modulo `2 ^ width`). -/
def elemBits (dt : DataType) (v : Int) : List Bool :=
  natToBits dt.width (v % ((2 : Int) ^ dt.width)).toNat

theorem length_elemBits (dt : DataType) (v : Int) :
    (elemBits dt v).length = dt.width := by
  simp [elemBits, length_natToBits]

/-- Decoding the field encoding of an allowed value recovers the value. -/
theorem toSigned_bitsToNat_elemBits (dt : DataType) (hw : 0 < dt.width)
    (v : Int) (hv : dt.allowed v) :
    dt.toSigned (bitsToNat (elemBits dt v)) = v := by
  set w := dt.width with hwdef
  have hMpos : (0 : Int) < (2 : Int) ^ w := by positivity
  have hmod_lt : v % ((2 : Int) ^ w) < (2 : Int) ^ w :=
    Int.emod_lt_of_pos v hMpos
  have hmod_nonneg : (0 : Int) ≤ v % ((2 : Int) ^ w) :=
    Int.emod_nonneg v (by omega)
  have hcastW : ((2 ^ w : Nat) : Int) = (2 : Int) ^ w := by push_cast; ring
  have hm_lt : (v % ((2 : Int) ^ w)).toNat < 2 ^ w := by omega
  have hbits : bitsToNat (elemBits dt v) = (v % ((2 : Int) ^ w)).toNat := by
    rw [elemBits, ← hwdef, bitsToNat_natToBits, Nat.mod_eq_of_lt hm_lt]
  rw [hbits]
  have hhalf : 2 ^ (w - 1) * 2 = 2 ^ w := by
    conv_rhs => rw [show w = (w - 1) + 1 by omega]
    rw [pow_succ]
  have hcastH : ((2 ^ (w - 1) : Nat) : Int) = (2 : Int) ^ (w - 1) := by
    push_cast; ring
  have hcastH2 : ((2 : Int) ^ (w - 1)) * 2 = (2 : Int) ^ w := by
    rw [← hcastH, ← hcastW, ← hhalf]; push_cast; ring
  unfold DataType.toSigned
  rw [← hwdef]
  cases hsg : dt.signed with
  | false =>
    have hv' : 0 ≤ v ∧ v < (2 : Int) ^ w := by
      have := hv; unfold DataType.allowed at this
      rw [hsg] at this; simpa [← hwdef] using this
    have hmod : v % ((2 : Int) ^ w) = v := Int.emod_eq_of_lt hv'.1 hv'.2
    rw [if_neg (by simp [hsg]), hmod]; omega
  | true =>
    have hv' : -((2 : Int) ^ (w - 1)) ≤ v ∧ v < (2 : Int) ^ (w - 1) := by
      have := hv; unfold DataType.allowed at this
      rw [hsg] at this; simpa [← hwdef] using this
    simp only [hsg, true_and]
    rcases le_or_lt 0 v with hpos | hneg
    · have hvlt : v < (2 : Int) ^ w := by omega
      have hmod : v % ((2 : Int) ^ w) = v := Int.emod_eq_of_lt hpos hvlt
      rw [hmod, if_neg (by omega)]
      omega
    · have hmod : v % ((2 : Int) ^ w) = v + (2 : Int) ^ w := by
        calc v % ((2 : Int) ^ w) = (v + (2 : Int) ^ w) % ((2 : Int) ^ w) :=
              Int.add_emod_self.symm
          _ = v + (2 : Int) ^ w := Int.emod_eq_of_lt (by omega) (by omega)
      rw [hmod, if_pos (by omega)]
      omega

/-! ## Word-level packing

Modelled from the spec (§4.2 BitPacker): elements of an innermost packing
group ("word") are serialized using exactly `width` bits each,
concatenated MSB-first within the word; `reverseInner` reverses the element
order within the word; the final partial byte is padded with zero bits; the
word is emitted as `ceil(width * groupSize / 8)` bytes, and `reverseEndian`
reverses the byte order of the word. -/

/-- Reverse a list when the flag is set. -/
def condRev (b : Bool) (l : List α) : List α := if b then l.reverse else l

theorem condRev_condRev (b : Bool) (l : List α) : condRev b (condRev b l) = l := by
  cases b <;> simp [condRev]

theorem length_condRev (b : Bool) (l : List α) : (condRev b l).length = l.length := by
  cases b <;> simp [condRev]

theorem mem_condRev (b : Bool) (l : List α) (x : α) : x ∈ condRev b l ↔ x ∈ l := by
  cases b <;> simp [condRev]

/-- The concatenated MSB-first bit fields of a word's elements. -/
def wordBits (dt : DataType) (es : List Int) : List Bool :=
  (es.map (elemBits dt)).flatten

theorem length_wordBits (dt : DataType) (es : List Int) :
    (wordBits dt es).length = es.length * dt.width := by
  unfold wordBits
  rw [flatten_length_const (es.map (elemBits dt)) dt.width, List.length_map]
  intro l hl
  rcases List.mem_map.mp hl with ⟨v, _, rfl⟩
  exact length_elemBits dt v

/-- Zero-pad a bit list to a whole number of bytes. -/
def padTo8 (bits : List Bool) : List Bool :=
  bits ++ List.replicate ((bits.length + 7) / 8 * 8 - bits.length) false

theorem length_padTo8 (bits : List Bool) :
    (padTo8 bits).length = (bits.length + 7) / 8 * 8 := by
  simp only [padTo8, List.length_append, List.length_replicate]
  omega

/-- Take successive 8-bit groups (MSB-first) as byte values. -/
def bytesOfBits : Nat → List Bool → List Nat
  | 0, _ => []
  | k + 1, bits => bitsToNat (bits.take 8) :: bytesOfBits k (bits.drop 8)

theorem length_bytesOfBits (k : Nat) (bits : List Bool) :
    (bytesOfBits k bits).length = k := by
  induction k generalizing bits with
  | zero => rfl
  | succ k ih => simp [bytesOfBits, ih]

/-- The MSB-first bit expansion of a byte sequence. -/
def bitsOfBytes (bytes : List Nat) : List Bool :=
  (bytes.map (natToBits 8)).flatten

theorem bitsOfBytes_bytesOfBits (k : Nat) (bits : List Bool)
    (h : bits.length = 8 * k) : bitsOfBytes (bytesOfBits k bits) = bits := by
  induction k generalizing bits with
  | zero =>
    have : bits = [] := List.eq_nil_of_length_eq_zero (by omega)
    simp [this, bytesOfBits, bitsOfBytes]
  | succ k ih =>
    have htake : (bits.take 8).length = 8 := by
      rw [List.length_take]; omega
    have hdrop : (bits.drop 8).length = 8 * k := by
      rw [List.length_drop]; omega
    have hbyte : natToBits 8 (bitsToNat (bits.take 8)) = bits.take 8 := by
      have h := natToBits_bitsToNat (bits.take 8)
      rwa [htake] at h
    simp only [bytesOfBits, bitsOfBytes, List.map_cons, List.flatten_cons]
    rw [hbyte]
    have := ih (bits.drop 8) hdrop
    unfold bitsOfBytes at this
    rw [this, List.take_append_drop]

/-- Split a padded bit list into `width`-bit fields and decode each. -/
def elemsOfBits (dt : DataType) : Nat → List Bool → List Int
  | 0, _ => []
  | g + 1, bits =>
    dt.toSigned (bitsToNat (bits.take dt.width)) ::
      elemsOfBits dt g (bits.drop dt.width)

theorem length_elemsOfBits (dt : DataType) (g : Nat) (bits : List Bool) :
    (elemsOfBits dt g bits).length = g := by
  induction g generalizing bits with
  | zero => rfl
  | succ g ih => simp [elemsOfBits, ih]

theorem elemsOfBits_wordBits (dt : DataType) (hw : 0 < dt.width)
    (es : List Int) (hval : ∀ v ∈ es, dt.allowed v) (tail : List Bool) :
    elemsOfBits dt es.length (wordBits dt es ++ tail) = es := by
  induction es generalizing tail with
  | nil => rfl
  | cons v es ih =>
    have hv : dt.allowed v := hval v (by simp)
    have hlen : (elemBits dt v).length = dt.width := length_elemBits dt v
    have ht : ((elemBits dt v ++ (wordBits dt es ++ tail)).take dt.width)
        = elemBits dt v := by
      rw [← hlen]; exact take_append_self _ _
    have hd : ((elemBits dt v ++ (wordBits dt es ++ tail)).drop dt.width)
        = wordBits dt es ++ tail := by
      rw [← hlen]; exact drop_append_self _ _
    have hcons : wordBits dt (v :: es) ++ tail
        = elemBits dt v ++ (wordBits dt es ++ tail) := by
      simp [wordBits, List.append_assoc]
    simp only [List.length_cons, elemsOfBits, hcons, ht, hd]
    rw [toSigned_bitsToNat_elemBits dt hw v hv,
      ih (fun u hu => hval u (by simp [hu])) tail]

/-- Pack one word (spec §4.2): optionally reverse the inner element order,
serialize each element in `width` bits MSB-first, zero-pad to whole bytes,
and optionally reverse the byte order. -/
def packWord (dt : DataType) (reverseEndian reverseInner : Bool)
    (es : List Int) : List Nat :=
  let bits := padTo8 (wordBits dt (condRev reverseInner es))
  condRev reverseEndian (bytesOfBits (bits.length / 8) bits)

/-- Unpack one word (spec §4.2): exact inverse of `packWord` for the same
`reverseEndian` / `reverseInner` convention, with two's-complement sign
extension for signed datatypes. -/
def unpackWord (dt : DataType) (g : Nat) (reverseEndian reverseInner : Bool)
    (bytes : List Nat) : List Int :=
  condRev reverseInner (elemsOfBits dt g (bitsOfBytes (condRev reverseEndian bytes)))

theorem length_packWord (dt : DataType) (re ri : Bool) (es : List Int) :
    (packWord dt re ri es).length = (es.length * dt.width + 7) / 8 := by
  simp only [packWord, length_condRev, length_bytesOfBits, length_padTo8,
    length_wordBits, length_condRev]
  omega

theorem length_unpackWord (dt : DataType) (g : Nat) (re ri : Bool)
    (bytes : List Nat) : (unpackWord dt g re ri bytes).length = g := by
  simp [unpackWord, length_condRev, length_elemsOfBits]

/-- Round trip at word level: unpacking the packed word recovers the word,
for any valid word under a fixed datatype and the same
`reverseEndian` / `reverseInner` convention. -/
theorem unpackWord_packWord (dt : DataType) (re ri : Bool) (es : List Int)
    (hw : 0 < dt.width) (hval : ∀ v ∈ es, dt.allowed v) :
    unpackWord dt es.length re ri (packWord dt re ri es) = es := by
  have hval' : ∀ v ∈ condRev ri es, dt.allowed v := by
    intro v hv; exact hval v ((mem_condRev ri es v).mp hv)
  have hlen' : (condRev ri es).length = es.length := length_condRev ri es
  set bits := padTo8 (wordBits dt (condRev ri es)) with hbits
  have hbl8 : bits.length = 8 * (bits.length / 8) := by
    rw [hbits, length_padTo8]; omega
  unfold unpackWord packWord
  rw [condRev_condRev, bitsOfBytes_bytesOfBits (bits.length / 8) bits hbl8]
  have hsplit : bits = wordBits dt (condRev ri es) ++
      List.replicate (((wordBits dt (condRev ri es)).length + 7) / 8 * 8
        - (wordBits dt (condRev ri es)).length) false := by
    rw [hbits]; rfl
  conv_lhs => rw [← hlen', hsplit]
  rw [elemsOfBits_wordBits dt hw (condRev ri es) hval' _, condRev_condRev]

/-! ## Tensors and shapes -/

/-- A numpy array: a shape and flat row-major data.  (Well-formed arrays
satisfy `data.length = listProd shape`; operations that care state it.) -/
structure Tensor where
  shape : List Nat
  data : List Int
deriving DecidableEq

/-- Number of elements of a shape. -/
def listProd (l : List Nat) : Nat := l.foldr (fun a b => a * b) 1

/-- The innermost (last) dimension of a shape; 1 for a rank-0 shape. -/
def innerDim (shape : List Nat) : Nat := shape.getLast?.getD 1

/-- The number of innermost groups ("words") of a shape. -/
def outerCount (shape : List Nat) : Nat := listProd shape.dropLast

theorem listProd_append (l₁ l₂ : List Nat) :
    listProd (l₁ ++ l₂) = listProd l₁ * listProd l₂ := by
  induction l₁ with
  | nil => simp [listProd]
  | cons a l₁ ih =>
    simp only [List.cons_append, listProd, List.foldr_cons] at *
    rw [ih]; ring

theorem listProd_eq_outer_mul_inner (shape : List Nat) :
    listProd shape = outerCount shape * innerDim shape := by
  rcases eq_or_ne shape [] with rfl | hne
  · simp [listProd, outerCount, innerDim]
  · have hdec : shape = shape.dropLast ++ [shape.getLast hne] :=
      (List.dropLast_append_getLast hne).symm
    have hlast : shape.getLast? = some (shape.getLast hne) :=
      List.getLast?_eq_getLast shape hne
    conv_lhs => rw [hdec]
    rw [listProd_append, outerCount, innerDim, hlast]
    simp [listProd]

/-! ## The bit-packing transcoder

Modelled from the spec: `finnpy_to_packed_bytearray` and
`packed_bytearray_to_finnpy` live in the external `finn.util.data_packing`
module and are not part of this repository's sources; the definitions
below follow spec §4.2 (BitPacker).  The folded array is processed word by
word along its innermost dimension; each word is packed by `packWord` /
unpacked by `unpackWord`.  The spec's range-error path for unrepresentable
values is not modelled (the driver invokes the packer with
`fast_mode=True`); the round-trip law is stated for valid inputs. -/

/-- Modelled from the spec: serialize a folded array into a flat packed
byte buffer (spec §4.2 `pack`). -/
def finnpy_to_packed_bytearray (x : Tensor) (dt : DataType)
    (reverseEndian reverseInner : Bool) : List Nat :=
  ((toChunks (innerDim x.shape) (outerCount x.shape) x.data).map
    (packWord dt reverseEndian reverseInner)).flatten

/-- Modelled from the spec: rebuild a folded array of the target shape from
a flat packed byte buffer (spec §4.2 `unpack`); fails when the buffer
length does not match the target shape. -/
def packed_bytearray_to_finnpy (bytes : List Nat) (dt : DataType)
    (targetShape : List Nat) (reverseEndian reverseInner : Bool) :
    Except String Tensor :=
  let g := innerDim targetShape
  let outer := outerCount targetShape
  let wb := (g * dt.width + 7) / 8
  if bytes.length = outer * wb then
    .ok ⟨targetShape,
      ((toChunks wb outer bytes).map
        (unpackWord dt g reverseEndian reverseInner)).flatten⟩
  else .error "packed bytearray length does not match target shape"

theorem length_finnpy_to_packed_bytearray (x : Tensor) (dt : DataType)
    (re ri : Bool) (hlen : x.data.length = listProd x.shape) :
    (finnpy_to_packed_bytearray x dt re ri).length
      = outerCount x.shape * ((innerDim x.shape * dt.width + 7) / 8) := by
  set g := innerDim x.shape
  set outer := outerCount x.shape
  have hdata : x.data.length = outer * g := by
    rw [hlen, listProd_eq_outer_mul_inner]
  unfold finnpy_to_packed_bytearray
  rw [flatten_length_const _ ((g * dt.width + 7) / 8), List.length_map,
    toChunks_length]
  intro l hl
  rcases List.mem_map.mp hl with ⟨c, hc, rfl⟩
  rw [length_packWord, length_mem_toChunks g outer x.data hdata c hc]

/-- Round trip of the array-level transcoder: for every folded array whose
words consist of allowed values, unpacking the packed buffer (with the same
`reverseEndian` / `reverseInner` convention) recovers the array. -/
theorem packed_bytearray_roundtrip (x : Tensor) (dt : DataType) (re ri : Bool)
    (hw : 0 < dt.width) (hlen : x.data.length = listProd x.shape)
    (hval : ∀ v ∈ x.data, dt.allowed v) :
    packed_bytearray_to_finnpy (finnpy_to_packed_bytearray x dt re ri)
      dt x.shape re ri = .ok x := by
  set g := innerDim x.shape with hg
  set outer := outerCount x.shape with houter
  set wb := (g * dt.width + 7) / 8 with hwb
  have hdata : x.data.length = outer * g := by
    rw [hlen, listProd_eq_outer_mul_inner]
  set ws := toChunks g outer x.data with hws
  have hwslen : ws.length = outer := toChunks_length g outer x.data
  have hclen : ∀ c ∈ ws, c.length = g :=
    length_mem_toChunks g outer x.data hdata
  have hpacklen : ∀ l ∈ ws.map (packWord dt re ri), l.length = wb := by
    intro l hl
    rcases List.mem_map.mp hl with ⟨c, hc, rfl⟩
    rw [length_packWord, hclen c hc]
  have hblen : (finnpy_to_packed_bytearray x dt re ri).length = outer * wb := by
    rw [length_finnpy_to_packed_bytearray x dt re ri hlen, ← hg, ← houter, hwb]
  unfold packed_bytearray_to_finnpy
  rw [if_pos hblen]
  have hchunks : toChunks wb outer (finnpy_to_packed_bytearray x dt re ri)
      = ws.map (packWord dt re ri) := by
    have h := toChunks_flatten wb (ws.map (packWord dt re ri)) hpacklen
    rw [List.length_map, hwslen] at h
    exact h
  rw [hchunks]
  have hmap : (ws.map (packWord dt re ri)).map (unpackWord dt g re ri) = ws := by
    rw [List.map_map]
    have : ∀ c ∈ ws, (unpackWord dt g re ri ∘ packWord dt re ri) c = c := by
      intro c hc
      have hcv : ∀ v ∈ c, dt.allowed v := by
        intro v hv
        exact hval v (mem_of_mem_toChunks g outer x.data c hc v hv)
      have := unpackWord_packWord dt re ri c hw hcv
      rw [hclen c hc] at this
      simpa using this
    calc ws.map (unpackWord dt g re ri ∘ packWord dt re ri)
        = ws.map id := List.map_congr_left this
      _ = ws := List.map_id ws
  rw [hmap, hws, flatten_toChunks g outer x.data hdata]

/-! ## The driver state machine

`FINNExampleOverlay` (`src/finn_examples/driver.py`) is embedded as a
state machine.  Device interactions are recorded in an `Event` trace:

* `idmaWrite` / `odmaWrite off val`: MMIO register writes to the input /
  output IODMA (`self.idma.write(off, val)` / `self.odma.write(off, val)`);
* `odmaRead off status`: an MMIO read of the output DMA status register
  returning `status` (`self.odma.read(0x00)`); successive read values are
  supplied by the oracle sequence `odmaStatusSeq` in the state;
* `idmaStart` / `odmaStart bs`: the alveo kernel launches
  (`self.idma.start(...)` / `self.odma.start(...)`);
* `odmaHandleWait`: blocking on the alveo output handle
  (`self.odma_handle.wait()`);
* `releaseIbuf` / `releaseObuf`: dropping the reference to an old device
  buffer (`self.ibuf_packed_device = None`);
* `allocIbuf` / `allocObuf shape cacheable`: `pynq.allocate` of a device
  buffer;
* `foldInput`, `packInput`, `copyToDevice`, `copyFromDevice`,
  `unpackOutput`, `unfoldOutput`: the data-pipeline stages of `execute`.
-/

inductive Event where
  | foldInput
  | packInput
  | copyToDevice
  | idmaWrite (off val : Nat)
  | odmaWrite (off val : Nat)
  | odmaRead (off status : Nat)
  | idmaStart (bs : Nat)
  | odmaStart (bs : Nat)
  | odmaHandleWait
  | releaseIbuf
  | releaseObuf
  | allocIbuf (shape : List Nat) (cacheable : Bool)
  | allocObuf (shape : List Nat) (cacheable : Bool)
  | copyFromDevice
  | unpackOutput
  | unfoldOutput
deriving DecidableEq

/-- Events addressed to the DMA engines (the launch-and-wait stage). -/
def Event.isDma : Event → Bool
  | .idmaWrite _ _ => true
  | .odmaWrite _ _ => true
  | .odmaRead _ _ => true
  | .idmaStart _ => true
  | .odmaStart _ => true
  | .odmaHandleWait => true
  | _ => false

/-- Events that observe the engine's busy/idle state (a status-register
read or a blocking wait on a handle). -/
def Event.isEngineCheck : Event → Bool
  | .odmaRead _ _ => true
  | .odmaHandleWait => true
  | _ => false

/-- A DMA configuration write: buffer address (offset 0x10) or element
count (offset 0x1C). -/
def Event.isConfigWrite : Event → Bool
  | .idmaWrite 0x10 _ => true
  | .idmaWrite 0x1C _ => true
  | .odmaWrite 0x10 _ => true
  | .odmaWrite 0x1C _ => true
  | _ => false

/-- The `io_shape_dict` configuration supplied at construction
(generated by the MakePYNQDriver transformation). -/
structure IOShapeDict where
  idt : DataType
  odt : DataType
  ishape_normal : List Nat
  oshape_normal : List Nat
  ishape_folded : List Nat
  oshape_folded : List Nat
  ishape_packed : List Nat
  oshape_packed : List Nat
deriving DecidableEq

/-- The driver's mutable state.  `odmaStatusSeq` is the oracle of future
output-DMA status-register read values; `ibufAddr` / `obufAddr` stand for
the allocator-assigned `device_address` of the device buffers. -/
structure DriverState where
  platform : String
  ioShapeDict : IOShapeDict
  batchSize : Nat
  odmaHandle : Option Unit
  ibufDevice : Option (List Nat)
  obufDevice : Option (List Nat)
  obufPacked : List Nat
  ibufAddr : Nat
  obufAddr : Nat
  odmaStatusSeq : List Nat
deriving DecidableEq

/-- Substitute the leading (batch) dimension of a shape
(`ret[0] = self.batch_size`, driver.py property pattern). -/
def setBatchDim (bs : Nat) (shape : List Nat) : List Nat :=
  match shape with
  | [] => []
  | _ :: t => bs :: t

def ishape_normal (s : DriverState) : List Nat :=
  setBatchDim s.batchSize s.ioShapeDict.ishape_normal

def oshape_normal (s : DriverState) : List Nat :=
  setBatchDim s.batchSize s.ioShapeDict.oshape_normal

def ishape_folded (s : DriverState) : List Nat :=
  setBatchDim s.batchSize s.ioShapeDict.ishape_folded

def oshape_folded (s : DriverState) : List Nat :=
  setBatchDim s.batchSize s.ioShapeDict.oshape_folded

def ishape_packed (s : DriverState) : List Nat :=
  setBatchDim s.batchSize s.ioShapeDict.ishape_packed

def oshape_packed (s : DriverState) : List Nat :=
  setBatchDim s.batchSize s.ioShapeDict.oshape_packed

/-- The `batch_size` property setter (driver.py lines 193-212): store the
new value, drop the references to the old device buffers ("reference
counting should care of it" — no engine-idleness check), then allocate
fresh device buffers shaped by the packed shapes under the new batch size
(cacheable on zynq, not on alveo) and a fresh host staging buffer
(`np.empty_like`). -/
def set_batch_size (v : Nat) (s : DriverState) : DriverState × List Event :=
  let s0 := { s with batchSize := v }
  let (s1, t1) :=
    match s0.ibufDevice with
    | some _ => ({ s0 with ibufDevice := none }, [Event.releaseIbuf])
    | none => (s0, [])
  let (s2, t2) :=
    match s1.obufDevice with
    | some _ => ({ s1 with obufDevice := none }, [Event.releaseObuf])
    | none => (s1, [])
  let cacheable := !(s.platform == "alveo")
  let ish := ishape_packed s2
  let osh := oshape_packed s2
  ({ s2 with
      ibufDevice := some (List.replicate (listProd ish) 0),
      obufDevice := some (List.replicate (listProd osh) 0),
      obufPacked := List.replicate (listProd osh) 0 },
    t1 ++ t2 ++ [Event.allocIbuf ish cacheable, Event.allocObuf osh cacheable])

/-- `fold_input` (driver.py lines 214-222): assert the input has the
expected normal shape, then reshape it to the folded shape (the reshape
fails when the element counts disagree). -/
def fold_input (x : Tensor) (s : DriverState) : Except String Tensor :=
  if x.shape = ishape_normal s then
    if listProd x.shape = listProd (ishape_folded s) then
      .ok ⟨ishape_folded s, x.data⟩
    else .error "cannot reshape input to folded shape"
  else .error "AssertionError"

/-- `pack_input` (driver.py lines 224-234): pack the folded input with the
input datatype, `reverse_endian=True`, `reverse_inner=True`. -/
def pack_input (s : DriverState) (folded : Tensor) : List Nat :=
  finnpy_to_packed_bytearray folded s.ioShapeDict.idt true true

/-- `unpack_output` (driver.py lines 236-247): unpack the packed output
buffer to the folded output shape with the output datatype,
`reverse_endian=True`, `reverse_inner=True`. -/
def unpack_output (s : DriverState) (bytes : List Nat) : Except String Tensor :=
  packed_bytearray_to_finnpy bytes s.ioShapeDict.odt (oshape_folded s) true true

/-- `unfold_output` (driver.py lines 249-253): reshape the folded output
to the normal output shape. -/
def unfold_output (s : DriverState) (folded : Tensor) : Except String Tensor :=
  if listProd folded.shape = listProd (oshape_normal s) then
    .ok ⟨oshape_normal s, folded.data⟩
  else .error "cannot reshape output to normal shape"

/-- `copy_input_data_to_device` (driver.py lines 255-258): `np.copyto`
into the device input buffer, then flush. -/
def copy_input_data_to_device (data : List Nat) (s : DriverState) :
    Except String DriverState :=
  match s.ibufDevice with
  | none => .error "input device buffer not allocated"
  | some buf =>
    if data.length = buf.length then .ok { s with ibufDevice := some data }
    else .error "could not broadcast input array into device buffer"

/-- `copy_output_data_from_device` (driver.py lines 260-263): invalidate,
then `np.copyto` the device output buffer into the host staging buffer. -/
def copy_output_data_from_device (s : DriverState) :
    Except String DriverState :=
  match s.obufDevice with
  | none => .error "output device buffer not allocated"
  | some buf =>
    if buf.length = s.obufPacked.length then .ok { s with obufPacked := buf }
    else .error "could not broadcast device buffer into output array"

/-- The polling loop of `wait_until_finished` (driver.py lines 301-303):
read the status register, re-read while the done bit (mask 0x2) is clear.
Returns the performed reads and the remaining oracle, or `none` when the
oracle is exhausted before a read with the done bit set occurs (the loop
would spin forever on such a register sequence). -/
def pollDone : List Nat → Option (List Nat × List Nat)
  | [] => none
  | r :: rs =>
    if (r &&& 2) ≠ 0 then some ([r], rs)
    else
      match pollDone rs with
      | none => none
      | some (l, rest) => some (r :: l, rest)

/-- `wait_until_finished` (driver.py lines 297-309): zynq-iodma polls the
output DMA status register until the done bit is set; alveo blocks on the
held output handle (asserting one exists) and then discards it. -/
def wait_until_finished (s : DriverState) :
    Except String Unit × DriverState × List Event :=
  if s.platform = "zynq-iodma" then
    match pollDone s.odmaStatusSeq with
    | some (reads, rest) =>
      (.ok (), { s with odmaStatusSeq := rest }, reads.map (Event.odmaRead 0))
    | none =>
      (.error "status oracle exhausted before done bit observed", s,
        s.odmaStatusSeq.map (Event.odmaRead 0))
  else if s.platform = "alveo" then
    match s.odmaHandle with
    | none => (.error "No odma_handle to wait on", s, [])
    | some _ => (.ok (), { s with odmaHandle := none }, [Event.odmaHandleWait])
  else (.error ("Unrecognized platform: " ++ s.platform), s, [])

/-- The launch part of `execute_on_buffers` (driver.py lines 275-292):
check the batch size, then per platform: zynq-iodma asserts the output DMA
idle (status bit 0x4), writes address (0x10) and count (0x1C) for both
channels, then the input start bit and the output start bit (offset 0x00);
alveo asserts no output handle is outstanding, then starts the input
kernel and keeps the handle returned by starting the output kernel. -/
def launchOnBuffers (bs? : Option Nat) (s : DriverState) :
    Except String Unit × DriverState × List Event :=
  let bs := bs?.getD s.batchSize
  if bs > s.batchSize then
    (.error "Specified batch_size is too large.", s, [])
  else if s.platform = "zynq-iodma" then
    match s.ibufDevice, s.obufDevice with
    | some _, some _ =>
      match s.odmaStatusSeq with
      | [] => (.error "status oracle exhausted", s, [])
      | st :: rest =>
        if (st &&& 4) ≠ 0 then
          (.ok (), { s with odmaStatusSeq := rest },
            [Event.odmaRead 0 st,
             Event.idmaWrite 0x10 s.ibufAddr, Event.idmaWrite 0x1C bs,
             Event.odmaWrite 0x10 s.obufAddr, Event.odmaWrite 0x1C bs,
             Event.idmaWrite 0x00 1, Event.odmaWrite 0x00 1])
        else
          (.error "Output DMA is not idle", { s with odmaStatusSeq := rest },
            [Event.odmaRead 0 st])
    | _, _ => (.error "device buffers not allocated", s, [])
  else if s.platform = "alveo" then
    match s.odmaHandle with
    | some _ => (.error "Output DMA is already running", s, [])
    | none =>
      match s.ibufDevice, s.obufDevice with
      | some _, some _ =>
        (.ok (), { s with odmaHandle := some () },
          [Event.idmaStart bs, Event.odmaStart bs])
      | _, _ => (.error "device buffers not allocated", s, [])
  else (.error ("Unrecognized platform: " ++ s.platform), s, [])

/-- `execute_on_buffers` (driver.py lines 265-295): launch the DMAs and,
when `asynch` is false, block in `wait_until_finished` before returning. -/
def execute_on_buffers (asynch : Bool) (bs? : Option Nat) (s : DriverState) :
    Except String Unit × DriverState × List Event :=
  let (r, s1, t) := launchOnBuffers bs? s
  match r with
  | .error e => (.error e, s1, t)
  | .ok _ =>
    if asynch then (.ok (), s1, t)
    else
      let (r2, s2, t2) := wait_until_finished s1
      (r2, s2, t ++ t2)

/-- Launch-then-wait composition: the reference behavior that a blocking
`execute_on_buffers` call must equal. -/
def andThenWait (r : Except String Unit × DriverState × List Event) :
    Except String Unit × DriverState × List Event :=
  match r with
  | (.error e, s, t) => (.error e, s, t)
  | (.ok _, s, t) =>
    let (r2, s2, t2) := wait_until_finished s
    (r2, s2, t ++ t2)

/-- `execute` (driver.py lines 311-322): fold, pack, copy to device,
execute on buffers (blocking), copy from device, unpack, unfold. -/
def execute (x : Tensor) (s : DriverState) :
    Except String Tensor × DriverState × List Event :=
  match fold_input x s with
  | .error e => (.error e, s, [])
  | .ok folded =>
    let packed := pack_input s folded
    match copy_input_data_to_device packed s with
    | .error e => (.error e, s, [.foldInput, .packInput])
    | .ok s1 =>
      match execute_on_buffers false none s1 with
      | (.error e, s2, t) =>
        (.error e, s2, [.foldInput, .packInput, .copyToDevice] ++ t)
      | (.ok _, s2, t) =>
        match copy_output_data_from_device s2 with
        | .error e =>
          (.error e, s2, [.foldInput, .packInput, .copyToDevice] ++ t)
        | .ok s3 =>
          match unpack_output s3 s3.obufPacked with
          | .error e =>
            (.error e, s3,
              [.foldInput, .packInput, .copyToDevice] ++ t ++ [.copyFromDevice])
          | .ok ofolded =>
            match unfold_output s3 ofolded with
            | .error e =>
              (.error e, s3,
                [.foldInput, .packInput, .copyToDevice] ++ t
                  ++ [.copyFromDevice, .unpackOutput])
            | .ok onormal =>
              (.ok onormal, s3,
                [.foldInput, .packInput, .copyToDevice] ++ t
                  ++ [.copyFromDevice, .unpackOutput, .unfoldOutput])

/-- `__init__` (driver.py lines 46-99): store the configuration, run the
`batch_size` setter (which allocates the device buffers), then validate the
platform string, raising for anything other than `"alveo"` or
`"zynq-iodma"`.  Bitstream download and clock configuration are external
collaborators; `load_runtime_weights` is modelled for the case of an
absent `runtime_weight_dir` (driver.py lines 116-117: it returns
immediately), so no flush execution is triggered. -/
def overlay_init (platform : String) (dict : IOShapeDict) (batchSize : Nat)
    (ibufAddr obufAddr : Nat) (statusSeq : List Nat) :
    Except String DriverState :=
  let s0 : DriverState :=
    { platform := platform, ioShapeDict := dict, batchSize := 0,
      odmaHandle := none, ibufDevice := none, obufDevice := none,
      obufPacked := [], ibufAddr := ibufAddr, obufAddr := obufAddr,
      odmaStatusSeq := statusSeq }
  let s1 := (set_batch_size batchSize s0).1
  if platform = "alveo" then .ok s1
  else if platform = "zynq-iodma" then .ok s1
  else .error "Supported platforms are zynq-iodma alveo"

/-! ## Helper lemmas about the driver operations -/

theorem eob_true_eq (b : Option Nat) (s : DriverState) :
    execute_on_buffers true b s = launchOnBuffers b s := by
  unfold execute_on_buffers
  rcases launchOnBuffers b s with ⟨r, s1, t⟩
  cases r <;> rfl

theorem eob_false_eq (b : Option Nat) (s : DriverState) :
    execute_on_buffers false b s = andThenWait (launchOnBuffers b s) := by
  unfold execute_on_buffers andThenWait
  rcases launchOnBuffers b s with ⟨r, s1, t⟩
  cases r <;> rfl

theorem launch_trace_dma (b : Option Nat) (s : DriverState) :
    ((launchOnBuffers b s).2.2).all Event.isDma = true := by
  simp only [launchOnBuffers]
  repeat' split
  all_goals rfl

theorem wait_trace_dma (s : DriverState) :
    ((wait_until_finished s).2.2).all Event.isDma = true := by
  unfold wait_until_finished
  repeat' split
  all_goals first
    | rfl
    | (rw [List.all_eq_true]
       intro x hx
       rcases List.mem_map.mp hx with ⟨r, _, rfl⟩
       rfl)

theorem launch_ok_trace_ne (b : Option Nat) (s : DriverState)
    (h : (launchOnBuffers b s).1.isOk = true) :
    (launchOnBuffers b s).2.2 ≠ [] := by
  simp only [launchOnBuffers] at *
  repeat' split at h <;> repeat' split
  all_goals simp_all [Except.isOk, Except.toBool]

theorem launch_batch (b : Option Nat) (s : DriverState) :
    ((launchOnBuffers b s).2.1).batchSize = s.batchSize := by
  simp only [launchOnBuffers]
  repeat' split
  all_goals rfl

theorem launch_dict (b : Option Nat) (s : DriverState) :
    ((launchOnBuffers b s).2.1).ioShapeDict = s.ioShapeDict := by
  simp only [launchOnBuffers]
  repeat' split
  all_goals rfl

theorem wait_batch (s : DriverState) :
    ((wait_until_finished s).2.1).batchSize = s.batchSize := by
  unfold wait_until_finished
  repeat' split
  all_goals rfl

theorem wait_dict (s : DriverState) :
    ((wait_until_finished s).2.1).ioShapeDict = s.ioShapeDict := by
  unfold wait_until_finished
  repeat' split
  all_goals rfl

theorem oshape_normal_congr (s s' : DriverState)
    (hb : s'.batchSize = s.batchSize) (hd : s'.ioShapeDict = s.ioShapeDict) :
    oshape_normal s' = oshape_normal s := by
  unfold oshape_normal
  rw [hb, hd]

/-- Characterization of the polling loop: it returns exactly the prefix of
the read sequence up to and including the first read with the done bit
(mask 0x2) set: every earlier read has the bit clear, the final read has it
set, and the remainder of the oracle is untouched. -/
theorem pollDone_iff (seq reads rest : List Nat) :
    pollDone seq = some (reads, rest) ↔
      (seq = reads ++ rest ∧ (∀ r ∈ reads.dropLast, (r &&& 2) = 0) ∧
        ∃ d, reads.getLast? = some d ∧ (d &&& 2) ≠ 0) := by
  induction seq generalizing reads rest with
  | nil =>
    constructor
    · intro h; simp [pollDone] at h
    · rintro ⟨hseq, -, d, hd, -⟩
      rcases List.nil_eq_append_iff.mp hseq with ⟨rfl, -⟩
      simp at hd
  | cons r rs ih =>
    by_cases hr : (r &&& 2) ≠ 0
    · rw [show pollDone (r :: rs) = some ([r], rs) by simp [pollDone, hr]]
      constructor
      · intro h
        have h' : (([r] : List Nat), rs) = (reads, rest) := Option.some.inj h
        have hreads : [r] = reads := congrArg Prod.fst h'
        have hrest : rs = rest := congrArg Prod.snd h'
        subst hreads; subst hrest
        exact ⟨rfl, by simp, r, by simp, hr⟩
      · rintro ⟨hseq, hclear, d, hlast, hd⟩
        cases reads with
        | nil => simp at hlast
        | cons a reads' =>
          have h1 : r = a := (List.cons.inj hseq).1
          have htail : rs = reads' ++ rest := (List.cons.inj hseq).2
          rw [← h1] at hclear hlast
          cases reads' with
          | nil =>
            simp only [List.nil_append] at htail
            rw [htail, ← h1]
          | cons b reads'' =>
            exfalso
            have hmem : r ∈ (r :: b :: reads'').dropLast := by
              simp [List.dropLast_cons₂]
            exact hr (hclear r hmem)
    · push_neg at hr
      have hstep : pollDone (r :: rs) =
          match pollDone rs with
          | none => none
          | some (l, rest') => some (r :: l, rest') := by
        simp [pollDone, hr]
      rw [hstep]
      constructor
      · intro h
        rcases hp : pollDone rs with - | ⟨l, rest'⟩
        · rw [hp] at h; simp at h
        · rw [hp] at h
          have h' : (r :: l, rest') = (reads, rest) := Option.some.inj h
          have hreads : r :: l = reads := congrArg Prod.fst h'
          have hrest : rest' = rest := congrArg Prod.snd h'
          subst hreads; subst hrest
          obtain ⟨hseq', hclear', d, hlast', hd'⟩ := (ih l rest').mp hp
          have hlne : l ≠ [] := by
            intro hln; rw [hln] at hlast'; simp at hlast'
          refine ⟨by rw [hseq']; rfl, ?_, d, ?_, hd'⟩
          · cases l with
            | nil => exact absurd rfl hlne
            | cons a l' =>
              intro x hx
              rw [List.dropLast_cons₂, List.mem_cons] at hx
              rcases hx with rfl | hx
              · exact hr
              · exact hclear' x hx
          · cases l with
            | nil => exact absurd rfl hlne
            | cons a l' => rw [List.getLast?_cons_cons]; exact hlast'
      · rintro ⟨hseq, hclear, d, hlast, hd⟩
        cases reads with
        | nil => simp at hlast
        | cons a reads' =>
          have h1 : r = a := (List.cons.inj hseq).1
          have htail : rs = reads' ++ rest := (List.cons.inj hseq).2
          rw [← h1] at hclear hlast
          cases reads' with
          | nil =>
            exfalso
            simp only [List.getLast?_singleton, Option.some.injEq] at hlast
            exact hd (hlast ▸ hr)
          | cons b reads'' =>
            have hlast' : (b :: reads'').getLast? = some d := by
              rw [List.getLast?_cons_cons] at hlast; exact hlast
            have hclear' : ∀ x ∈ (b :: reads'').dropLast, (x &&& 2) = 0 := by
              intro x hx
              refine hclear x ?_
              rw [List.dropLast_cons₂, List.mem_cons]
              right; exact hx
            have hp : pollDone rs = some (b :: reads'', rest) :=
              (ih (b :: reads'') rest).mpr ⟨htail, hclear', d, hlast', hd⟩
            rw [hp, ← h1]

/-! ## Concrete fixtures used by the witnesses -/

def sampleDict : IOShapeDict :=
  { idt := ⟨8, false⟩, odt := ⟨8, false⟩,
    ishape_normal := [1, 1], oshape_normal := [1, 1],
    ishape_folded := [1, 1, 1], oshape_folded := [1, 1, 1],
    ishape_packed := [1, 1, 1], oshape_packed := [1, 1, 1] }

def zynqState : DriverState :=
  { platform := "zynq-iodma", ioShapeDict := sampleDict, batchSize := 1,
    odmaHandle := none, ibufDevice := some [0], obufDevice := some [5],
    obufPacked := [0], ibufAddr := 100, obufAddr := 200,
    odmaStatusSeq := [4, 2] }

def zynqPollState : DriverState :=
  { zynqState with odmaStatusSeq := [4, 0, 0, 2] }

def alveoIdleState : DriverState :=
  { platform := "alveo", ioShapeDict := sampleDict, batchSize := 1,
    odmaHandle := none, ibufDevice := some [0], obufDevice := some [0],
    obufPacked := [0], ibufAddr := 0, obufAddr := 0, odmaStatusSeq := [] }

def alveoBusyState : DriverState :=
  { alveoIdleState with odmaHandle := some () }

def packDict : IOShapeDict :=
  { idt := ⟨4, false⟩, odt := ⟨4, false⟩,
    ishape_normal := [1, 8], oshape_normal := [1, 8],
    ishape_folded := [1, 2, 4], oshape_folded := [1, 2, 4],
    ishape_packed := [1, 2, 2], oshape_packed := [1, 2, 2] }

def packState : DriverState :=
  { platform := "zynq-iodma", ioShapeDict := packDict, batchSize := 1,
    odmaHandle := none, ibufDevice := some (List.replicate 4 0),
    obufDevice := some (List.replicate 4 0),
    obufPacked := List.replicate 4 0, ibufAddr := 0, obufAddr := 0,
    odmaStatusSeq := [] }

/-! ## The claims -/

/-- Claim C1: for every folded array `x` valid for the configured datatype
and folded shape (each element representable in the datatype's bit width),
unpacking the packed byte buffer produced from `x` reconstructs `x`
exactly: `unpack_output (pack_input x) = x`, with the same
`reverse_endian` / `reverse_inner` convention on both directions (the
driver passes `True, True` to both).  Stated for a session whose output
datatype and folded shape coincide with the input ones, which is what a
round trip through the same session means. -/
theorem claim1_pack_unpack_roundtrip (s : DriverState) (x : Tensor)
    (hdt : s.ioShapeDict.odt = s.ioShapeDict.idt)
    (hsh : x.shape = oshape_folded s)
    (hw : 0 < s.ioShapeDict.idt.width)
    (hlen : x.data.length = listProd x.shape)
    (hval : ∀ v ∈ x.data, s.ioShapeDict.idt.allowed v) :
    unpack_output s (pack_input s x) = .ok x := by
  unfold unpack_output pack_input
  rw [hdt, ← hsh]
  exact packed_bytearray_roundtrip x s.ioShapeDict.idt true true hw hlen hval

theorem claim1_witness :
    unpack_output packState
        (pack_input packState ⟨[1, 2, 4], [1, 2, 3, 4, 5, 6, 7, 8]⟩)
      = .ok ⟨[1, 2, 4], [1, 2, 3, 4, 5, 6, 7, 8]⟩ :=
  claim1_pack_unpack_roundtrip packState ⟨[1, 2, 4], [1, 2, 3, 4, 5, 6, 7, 8]⟩
    rfl (by decide) (by decide) (by decide) (by decide)

/-- Claim C3: `execute_on_buffers` with blocking requested
(`asynch = false`) equals launching followed by `wait_until_finished`,
while with non-blocking requested (`asynch = true`) it returns right after
launching (the caller must call `wait_until_finished` later). -/
theorem claim3_blocking_behavior (b : Option Nat) (s : DriverState) :
    execute_on_buffers false b s = andThenWait (execute_on_buffers true b s) ∧
    execute_on_buffers true b s = launchOnBuffers b s :=
  ⟨by rw [eob_false_eq, eob_true_eq], eob_true_eq b s⟩

/-- Claim C5: on the alveo backend at most one output-transfer handle may
be outstanding: launching while a handle is held fails with the
"Output DMA is already running" precondition error; launching with no
handle held succeeds and records the new handle; after
`wait_until_finished` the held handle is discarded (engine idle again). -/
theorem claim5_single_handle (s : DriverState) (h : s.platform = "alveo") :
    (s.odmaHandle = some () →
      execute_on_buffers true none s
        = (.error "Output DMA is already running", s, [])) ∧
    (s.odmaHandle = none →
      ∀ ib ob, s.ibufDevice = some ib → s.obufDevice = some ob →
        execute_on_buffers true none s
          = (.ok (), { s with odmaHandle := some () },
              [Event.idmaStart s.batchSize, Event.odmaStart s.batchSize])) ∧
    (s.odmaHandle = some () →
      wait_until_finished s
        = (.ok (), { s with odmaHandle := none }, [Event.odmaHandleWait])) := by
  refine ⟨?_, ?_, ?_⟩
  · intro hh
    rw [eob_true_eq]
    simp [launchOnBuffers, h, hh]
  · intro h0 ib ob hib hob
    rw [eob_true_eq]
    simp [launchOnBuffers, h, h0, hib, hob]
  · intro hh
    simp [wait_until_finished, h, hh]

theorem claim5_witness :
    execute_on_buffers true none alveoBusyState
      = (.error "Output DMA is already running", alveoBusyState, []) ∧
    execute_on_buffers true none alveoIdleState
      = (.ok (), { alveoIdleState with odmaHandle := some () },
          [Event.idmaStart 1, Event.odmaStart 1]) ∧
    wait_until_finished alveoBusyState
      = (.ok (), { alveoBusyState with odmaHandle := none },
          [Event.odmaHandleWait]) :=
  ⟨(claim5_single_handle alveoBusyState rfl).1 rfl,
   (claim5_single_handle alveoIdleState rfl).2.1 rfl [0] [0] rfl rfl,
   (claim5_single_handle alveoBusyState rfl).2.2 rfl⟩

/-- Claim C6: on the zynq-iodma backend, `wait_until_finished` returns
only after the done bit (mask 0x2) is observed set in the output DMA
status register: the polling loop re-reads while the bit is clear and
terminates exactly at the first read with the bit set (it consumes exactly
that prefix of the read sequence); when no read in the sequence ever has
the bit set the wait never completes (modelled as a non-`ok` result). -/
theorem claim6_wait_polls_done (s : DriverState)
    (h : s.platform = "zynq-iodma") :
    (∀ reads rest, pollDone s.odmaStatusSeq = some (reads, rest) ↔
      (s.odmaStatusSeq = reads ++ rest ∧
        (∀ r ∈ reads.dropLast, (r &&& 2) = 0) ∧
        ∃ d, reads.getLast? = some d ∧ (d &&& 2) ≠ 0)) ∧
    (∀ reads rest, pollDone s.odmaStatusSeq = some (reads, rest) →
      wait_until_finished s
        = (.ok (), { s with odmaStatusSeq := rest },
            reads.map (Event.odmaRead 0))) ∧
    (pollDone s.odmaStatusSeq = none →
      (wait_until_finished s).1.isOk = false) := by
  refine ⟨fun reads rest => pollDone_iff s.odmaStatusSeq reads rest, ?_, ?_⟩
  · intro reads rest hp
    simp [wait_until_finished, h, hp]
  · intro hp
    simp [wait_until_finished, h, hp, Except.isOk, Except.toBool]

theorem claim6_witness :
    wait_until_finished zynqPollState
      = (.ok (), { zynqPollState with odmaStatusSeq := [] },
          [Event.odmaRead 0 4, Event.odmaRead 0 0, Event.odmaRead 0 0,
           Event.odmaRead 0 2]) :=
  (claim6_wait_polls_done zynqPollState rfl).2.1 [4, 0, 0, 2] [] (by decide)

/-- Claim C7: on the zynq-iodma backend every launch first asserts that
the output channel is idle (a status read, bit mask 0x4), then issues the
address (0x10) and count (0x1C) configuration writes for both channels
before writing either channel's start bit (offset 0x00), and writes the
input channel's start bit before the output channel's: the emitted trace
is exactly idle-read :: config-writes ++ [input-start, output-start]. -/
theorem claim7_zynq_launch_order (s : DriverState)
    (h : s.platform = "zynq-iodma") (st : Nat) (rest : List Nat)
    (hseq : s.odmaStatusSeq = st :: rest) (hidle : (st &&& 4) ≠ 0)
    (ib ob : List Nat) (hib : s.ibufDevice = some ib)
    (hob : s.obufDevice = some ob) :
    execute_on_buffers true none s
      = (.ok (), { s with odmaStatusSeq := rest },
          Event.odmaRead 0 st ::
            ([Event.idmaWrite 0x10 s.ibufAddr, Event.idmaWrite 0x1C s.batchSize,
              Event.odmaWrite 0x10 s.obufAddr, Event.odmaWrite 0x1C s.batchSize]
              ++ [Event.idmaWrite 0x00 1, Event.odmaWrite 0x00 1])) ∧
    (∀ e ∈ [Event.idmaWrite 0x10 s.ibufAddr, Event.idmaWrite 0x1C s.batchSize,
            Event.odmaWrite 0x10 s.obufAddr, Event.odmaWrite 0x1C s.batchSize],
        e.isConfigWrite = true) := by
  constructor
  · rw [eob_true_eq]
    simp [launchOnBuffers, h, hseq, hidle, hib, hob]
  · intro e he
    simp only [List.mem_cons, List.not_mem_nil, or_false] at he
    rcases he with rfl | rfl | rfl | rfl <;> rfl

theorem claim7_witness :
    execute_on_buffers true none zynqState
      = (.ok (), { zynqState with odmaStatusSeq := [2] },
          Event.odmaRead 0 4 ::
            ([Event.idmaWrite 0x10 100, Event.idmaWrite 0x1C 1,
              Event.odmaWrite 0x10 200, Event.odmaWrite 0x1C 1]
              ++ [Event.idmaWrite 0x00 1, Event.odmaWrite 0x00 1])) ∧
    (∀ e ∈ [Event.idmaWrite 0x10 100, Event.idmaWrite 0x1C 1,
            Event.odmaWrite 0x10 200, Event.odmaWrite 0x1C 1],
        e.isConfigWrite = true) :=
  claim7_zynq_launch_order zynqState rfl 4 [2] rfl (by decide) [0] [5] rfl rfl

/-- Claim C8: the launch operation fails with the precondition error
"Specified batch_size is too large." whenever an explicit batch size
exceeds the configured maximum, and when no batch size is supplied the
configured batch size is used (the call behaves exactly like one with the
configured batch size). -/
theorem claim8_batch_size_check (s : DriverState) (a : Bool) :
    (∀ b, b > s.batchSize →
      execute_on_buffers a (some b) s
        = (.error "Specified batch_size is too large.", s, [])) ∧
    execute_on_buffers a none s = execute_on_buffers a (some s.batchSize) s := by
  constructor
  · intro b hb
    have hl : launchOnBuffers (some b) s
        = (.error "Specified batch_size is too large.", s, []) := by
      simp [launchOnBuffers, hb]
    cases a
    · rw [eob_false_eq, hl]; rfl
    · rw [eob_true_eq, hl]
  · rfl

theorem claim8_witness :
    execute_on_buffers true (some 5) zynqState
      = (.error "Specified batch_size is too large.", zynqState, []) ∧
    execute_on_buffers true none zynqState
      = execute_on_buffers true (some zynqState.batchSize) zynqState :=
  ⟨(claim8_batch_size_check zynqState true).1 5 (by decide),
   (claim8_batch_size_check zynqState true).2⟩

/-- Claim C10: for every input array whose shape differs from the expected
normal input shape, `execute` fails with the `fold_input` assertion before
any packing, buffer copy, or DMA launch is performed: the result is the
assertion error, the state is unchanged, and the emitted trace is empty. -/
theorem claim10_execute_shape_assert (s : DriverState) (x : Tensor)
    (h : x.shape ≠ ishape_normal s) :
    execute x s = (.error "AssertionError", s, []) := by
  unfold execute fold_input
  rw [if_neg h]

theorem claim10_witness :
    execute ⟨[2, 2], [0, 0, 0, 0]⟩ zynqState
      = (.error "AssertionError", zynqState, []) :=
  claim10_execute_shape_assert zynqState ⟨[2, 2], [0, 0, 0, 0]⟩ (by decide)

/-- The value of the `batch_size` setter, spelled out: the new batch size
is stored, references to whichever old device buffers existed are dropped,
and fresh buffers are allocated for the packed shapes under the new batch
size. -/
theorem set_batch_size_eq (v : Nat) (s : DriverState) :
    set_batch_size v s =
      ({ platform := s.platform, ioShapeDict := s.ioShapeDict,
          batchSize := v, odmaHandle := s.odmaHandle,
          ibufDevice := some (List.replicate
            (listProd (setBatchDim v s.ioShapeDict.ishape_packed)) 0),
          obufDevice := some (List.replicate
            (listProd (setBatchDim v s.ioShapeDict.oshape_packed)) 0),
          obufPacked := List.replicate
            (listProd (setBatchDim v s.ioShapeDict.oshape_packed)) 0,
          ibufAddr := s.ibufAddr, obufAddr := s.obufAddr,
          odmaStatusSeq := s.odmaStatusSeq },
        ((match s.ibufDevice with
          | some _ => [Event.releaseIbuf]
          | none => []) ++
         (match s.obufDevice with
          | some _ => [Event.releaseObuf]
          | none => [])) ++
        [Event.allocIbuf (setBatchDim v s.ioShapeDict.ishape_packed)
            (!(s.platform == "alveo")),
         Event.allocObuf (setBatchDim v s.ioShapeDict.oshape_packed)
            (!(s.platform == "alveo"))]) := by
  rcases hib : s.ibufDevice with - | ib <;> rcases hob : s.obufDevice with - | ob <;>
    simp [set_batch_size, hib, hob, ishape_packed, oshape_packed]

/-- Counterexample to claim C4 as stated: the claim says the buffer pool
is resized "only when the engine reports an idle state", the release
"being guarded by an engine-idleness check".  In the code the `batch_size`
setter performs no engine-idleness check at all: here the engine is
non-idle (an alveo output handle is outstanding), yet setting a new batch
size completes, reallocates the buffers, and performs no status read or
handle wait. -/
theorem claim4_counterexample :
    alveoBusyState.odmaHandle = some () ∧
    (set_batch_size 2 alveoBusyState).1.batchSize = 2 ∧
    (set_batch_size 2 alveoBusyState).1.ibufDevice = some [0, 0] ∧
    ((set_batch_size 2 alveoBusyState).2).all
      (fun e => !e.isEngineCheck) = true := by decide

/-- Claim C4 amended: setting a new batch size unconditionally drops the
references to both old device buffers before allocating the new ones (the
release relies on reference counting), and performs no engine-idleness
check whatsoever — the trace contains no status read or handle wait, and
the setter succeeds regardless of the engine state. -/
theorem claim4_amended (s : DriverState) (v : Nat) :
    ((set_batch_size v s).2).all (fun e => !e.isEngineCheck) = true ∧
    (∃ rel ish osh c,
      (set_batch_size v s).2
        = rel ++ [Event.allocIbuf ish c, Event.allocObuf osh c] ∧
      ∀ e ∈ rel, e = Event.releaseIbuf ∨ e = Event.releaseObuf) ∧
    (set_batch_size v s).1.batchSize = v := by
  rw [set_batch_size_eq]
  rcases s.ibufDevice with - | ib <;> rcases s.obufDevice with - | ob
  · exact ⟨rfl, ⟨[], setBatchDim v s.ioShapeDict.ishape_packed,
      setBatchDim v s.ioShapeDict.oshape_packed, !(s.platform == "alveo"),
      rfl, by decide⟩, rfl⟩
  · exact ⟨rfl, ⟨[Event.releaseObuf], setBatchDim v s.ioShapeDict.ishape_packed,
      setBatchDim v s.ioShapeDict.oshape_packed, !(s.platform == "alveo"),
      rfl, by decide⟩, rfl⟩
  · exact ⟨rfl, ⟨[Event.releaseIbuf], setBatchDim v s.ioShapeDict.ishape_packed,
      setBatchDim v s.ioShapeDict.oshape_packed, !(s.platform == "alveo"),
      rfl, by decide⟩, rfl⟩
  · exact ⟨rfl, ⟨[Event.releaseIbuf, Event.releaseObuf],
      setBatchDim v s.ioShapeDict.ishape_packed,
      setBatchDim v s.ioShapeDict.oshape_packed, !(s.platform == "alveo"),
      rfl, by decide⟩, rfl⟩

def badDict : IOShapeDict :=
  { idt := ⟨8, false⟩, odt := ⟨8, false⟩,
    ishape_normal := [1, 2], oshape_normal := [1, 2],
    ishape_folded := [1, 3, 1], oshape_folded := [1, 2, 1],
    ishape_packed := [1, 2, 1], oshape_packed := [1, 2, 1] }

/-- Counterexample to claim C9 as stated: an `io_shape_dict` whose normal
and folded input shapes disagree in element count
(`product [1,2] = 2 ≠ 3 = product [1,3,1]`) still constructs
successfully — `__init__` performs no consistency check on the shape
metadata. -/
theorem claim9_counterexample :
    listProd badDict.ishape_normal ≠ listProd badDict.ishape_folded ∧
    (overlay_init "alveo" badDict 1 0 0 []).isOk = true := by decide

/-- Claim C9 amended: construction fails with a configuration error
exactly for an unrecognized platform selector; no element-count
consistency check is performed on the shape metadata, so construction
succeeds for any `io_shape_dict` whenever the platform is `"alveo"` or
`"zynq-iodma"` (a count mismatch only surfaces later as a reshape failure
in `fold_input` / `unfold_output`). -/
theorem claim9_amended (platform : String) (dict : IOShapeDict)
    (batchSize ia oa : Nat) (seq : List Nat) :
    (overlay_init platform dict batchSize ia oa seq).isOk = true ↔
      (platform = "alveo" ∨ platform = "zynq-iodma") := by
  unfold overlay_init
  by_cases h1 : platform = "alveo"
  · simp [h1, Except.isOk, Except.toBool]
  · by_cases h2 : platform = "zynq-iodma"
    · simp [h1, h2, Except.isOk, Except.toBool]
    · simp [h1, h2, Except.isOk, Except.toBool]

theorem copy_in_batch_dict (d : List Nat) (s s' : DriverState)
    (h : copy_input_data_to_device d s = .ok s') :
    s'.batchSize = s.batchSize ∧ s'.ioShapeDict = s.ioShapeDict := by
  unfold copy_input_data_to_device at h
  split at h
  · simp at h
  · split at h
    · have := Except.ok.inj h
      rw [← this]
      exact ⟨rfl, rfl⟩
    · simp at h

theorem copy_out_batch_dict (s s' : DriverState)
    (h : copy_output_data_from_device s = .ok s') :
    s'.batchSize = s.batchSize ∧ s'.ioShapeDict = s.ioShapeDict := by
  unfold copy_output_data_from_device at h
  split at h
  · simp at h
  · split at h
    · have := Except.ok.inj h
      rw [← this]
      exact ⟨rfl, rfl⟩
    · simp at h

theorem andThenWait_ok (u : Unit) (sa : DriverState) (ta : List Event) :
    andThenWait (.ok u, sa, ta)
      = ((wait_until_finished sa).1, (wait_until_finished sa).2.1,
          ta ++ (wait_until_finished sa).2.2) := by
  rcases hw : wait_until_finished sa with ⟨r, sb, tb⟩
  simp [andThenWait, hw]

/-- Claim C2: whenever `execute` runs to completion it performs exactly
the stage sequence fold, pack, copy-to-device, launch-and-wait on the DMA
engines, copy-from-device, unpack, unfold — in that order (the trace is
the three pre-stages, then a nonempty block of DMA-engine events, then the
three post-stages) — and the returned tensor has the normal output
shape. -/
theorem claim2_execute_stages (x : Tensor) (s : DriverState)
    (out : Tensor) (s' : DriverState) (tr : List Event)
    (h : execute x s = (.ok out, s', tr)) :
    (∃ dma, tr = [Event.foldInput, Event.packInput, Event.copyToDevice]
        ++ dma
        ++ [Event.copyFromDevice, Event.unpackOutput, Event.unfoldOutput] ∧
      dma ≠ [] ∧ (∀ e ∈ dma, e.isDma = true)) ∧
    out.shape = oshape_normal s := by
  simp only [execute] at h
  cases hf : fold_input x s with
  | error e => simp [hf] at h
  | ok folded =>
    simp only [hf] at h
    cases hc : copy_input_data_to_device (pack_input s folded) s with
    | error e => simp [hc] at h
    | ok s1 =>
      simp only [hc] at h
      rcases heob : execute_on_buffers false none s1 with ⟨r2, s2, t⟩
      simp only [heob] at h
      cases r2 with
      | error e => simp at h
      | ok u =>
        cases hcod : copy_output_data_from_device s2 with
        | error e => simp [hcod] at h
        | ok s3 =>
          simp only [hcod] at h
          cases hup : unpack_output s3 s3.obufPacked with
          | error e => simp [hup] at h
          | ok ofolded =>
            simp only [hup] at h
            cases huf : unfold_output s3 ofolded with
            | error e => simp [huf] at h
            | ok onormal =>
              simp only [huf] at h
              obtain ⟨rfl, rfl, rfl⟩ :
                  onormal = out ∧ s3 = s' ∧
                    [Event.foldInput, Event.packInput, Event.copyToDevice]
                      ++ t
                      ++ [Event.copyFromDevice, Event.unpackOutput,
                          Event.unfoldOutput] = tr := by
                simpa using h
              -- decompose the launch-and-wait block
              have heq := eob_false_eq none s1
              rw [heob] at heq
              rcases hl : launchOnBuffers none s1 with ⟨r1, sa, ta⟩
              rw [hl] at heq
              cases r1 with
              | error e => simp [andThenWait] at heq
              | ok u' =>
                rw [andThenWait_ok] at heq
                rcases hw2 : wait_until_finished sa with ⟨r2', sb, tb⟩
                rw [hw2] at heq
                have ht : t = ta ++ tb := congrArg (fun p => p.2.2) heq
                have hta_ne : ta ≠ [] := by
                  have hok : (launchOnBuffers none s1).1.isOk = true := by
                    rw [hl]; rfl
                  have := launch_ok_trace_ne none s1 hok
                  rw [hl] at this
                  exact this
                have hta_dma : ∀ e ∈ ta, e.isDma = true := by
                  have := launch_trace_dma none s1
                  rw [hl] at this
                  exact fun e he => List.all_eq_true.mp this e he
                have htb_dma : ∀ e ∈ tb, e.isDma = true := by
                  have := wait_trace_dma sa
                  rw [hw2] at this
                  exact fun e he => List.all_eq_true.mp this e he
                constructor
                · refine ⟨t, rfl, ?_, ?_⟩
                  · rw [ht]
                    intro hcontra
                    exact hta_ne (List.append_eq_nil.mp hcontra).1
                  · intro e he
                    rw [ht] at he
                    rcases List.mem_append.mp he with he | he
                    · exact hta_dma e he
                    · exact htb_dma e he
                · -- the output tensor carries the normal output shape
                  have hshape : onormal.shape = oshape_normal s3 := by
                    unfold unfold_output at huf
                    split at huf
                    · have := Except.ok.inj huf
                      rw [← this]
                    · simp at huf
                  have h1 := copy_in_batch_dict (pack_input s folded) s s1 hc
                  have h2b : sa.batchSize = s1.batchSize := by
                    have := launch_batch none s1; rw [hl] at this; exact this
                  have h2d : sa.ioShapeDict = s1.ioShapeDict := by
                    have := launch_dict none s1; rw [hl] at this; exact this
                  have h3b : sb.batchSize = sa.batchSize := by
                    have := wait_batch sa; rw [hw2] at this; exact this
                  have h3d : sb.ioShapeDict = sa.ioShapeDict := by
                    have := wait_dict sa; rw [hw2] at this; exact this
                  have hs2 : s2 = sb := congrArg (fun p => p.2.1) heq
                  have h4 := copy_out_batch_dict s2 s3 hcod
                  rw [hshape]
                  refine oshape_normal_congr s s3 ?_ ?_
                  · rw [h4.1, hs2, h3b, h2b, h1.1]
                  · rw [h4.2, hs2, h3d, h2d, h1.2]

theorem claim2_witness :
    (∃ dma,
      ([Event.foldInput, Event.packInput, Event.copyToDevice,
        Event.odmaRead 0 4, Event.idmaWrite 0x10 100, Event.idmaWrite 0x1C 1,
        Event.odmaWrite 0x10 200, Event.odmaWrite 0x1C 1,
        Event.idmaWrite 0x00 1, Event.odmaWrite 0x00 1, Event.odmaRead 0 2,
        Event.copyFromDevice, Event.unpackOutput, Event.unfoldOutput]
          : List Event)
        = [Event.foldInput, Event.packInput, Event.copyToDevice] ++ dma
          ++ [Event.copyFromDevice, Event.unpackOutput, Event.unfoldOutput] ∧
      dma ≠ [] ∧ (∀ e ∈ dma, e.isDma = true)) ∧
    (⟨[1, 1], [5]⟩ : Tensor).shape = oshape_normal zynqState :=
  claim2_execute_stages ⟨[1, 1], [7]⟩ zynqState ⟨[1, 1], [5]⟩
    { zynqState with
        ibufDevice := some [7]
        obufPacked := [5]
        odmaStatusSeq := [] }
    [Event.foldInput, Event.packInput, Event.copyToDevice,
     Event.odmaRead 0 4, Event.idmaWrite 0x10 100, Event.idmaWrite 0x1C 1,
     Event.odmaWrite 0x10 200, Event.odmaWrite 0x1C 1,
     Event.idmaWrite 0x00 1, Event.odmaWrite 0x00 1, Event.odmaRead 0 2,
     Event.copyFromDevice, Event.unpackOutput, Event.unfoldOutput]
    rfl
